import Mathlib

/-!
Verification of the marker/section editing core of the sample-slice audio tool.

The definitions below are shallow embeddings of the TypeScript sources:
times and pixel quantities are modelled as exact rationals (`ℚ`); where the
JavaScript semantics of division by zero matters (the coordinate mapper of
`WaveformCanvas`), numbers are modelled by `JSNum`, rationals extended with
the IEEE special values `Infinity`, `-Infinity` and `NaN`.  Floating point
rounding and negative zero are not modelled: every property proved or refuted
here is insensitive to rounding (the refuted one only distinguishes `0` from
`NaN`/`Infinity`).
-/

namespace SampleSliceTool

/-- JavaScript numbers, as exact rationals extended with the IEEE special
values.  Rounding is not modelled; `-0` is identified with `0`. -/
inductive JSNum where
  | num (q : ℚ)
  | posInf
  | negInf
  | nan
deriving DecidableEq, Repr

/-- IEEE negation. -/
def jsNeg : JSNum → JSNum
  | .num a => .num (-a)
  | .posInf => .negInf
  | .negInf => .posInf
  | .nan => .nan

/-- IEEE addition (exact on finite values). -/
def jsAdd : JSNum → JSNum → JSNum
  | .nan, _ => .nan
  | _, .nan => .nan
  | .num a, .num b => .num (a + b)
  | .posInf, .negInf => .nan
  | .negInf, .posInf => .nan
  | .posInf, _ => .posInf
  | _, .posInf => .posInf
  | .negInf, _ => .negInf
  | _, .negInf => .negInf

/-- IEEE subtraction, `a - b = a + (-b)`. -/
def jsSub (a b : JSNum) : JSNum := jsAdd a (jsNeg b)

/-- IEEE multiplication (exact on finite values). -/
def jsMul : JSNum → JSNum → JSNum
  | .nan, _ => .nan
  | _, .nan => .nan
  | .num a, .num b => .num (a * b)
  | .posInf, .num b => if 0 < b then .posInf else if b < 0 then .negInf else .nan
  | .num a, .posInf => if 0 < a then .posInf else if a < 0 then .negInf else .nan
  | .negInf, .num b => if 0 < b then .negInf else if b < 0 then .posInf else .nan
  | .num a, .negInf => if 0 < a then .negInf else if a < 0 then .posInf else .nan
  | .posInf, .posInf => .posInf
  | .posInf, .negInf => .negInf
  | .negInf, .posInf => .negInf
  | .negInf, .negInf => .posInf

/-- IEEE division (exact on finite values).  Dividing a finite number by zero
yields `NaN` for `0 / 0` and a signed infinity otherwise; this is the case the
degenerate-geometry claims are about. -/
def jsDiv : JSNum → JSNum → JSNum
  | .nan, _ => .nan
  | _, .nan => .nan
  | .num a, .num b =>
      if b = 0 then (if a = 0 then .nan else if 0 < a then .posInf else .negInf)
      else .num (a / b)
  | .num _, .posInf => .num 0
  | .num _, .negInf => .num 0
  | .posInf, .num b => if 0 ≤ b then .posInf else .negInf
  | .negInf, .num b => if 0 ≤ b then .negInf else .posInf
  | .posInf, .posInf => .nan
  | .posInf, .negInf => .nan
  | .negInf, .posInf => .nan
  | .negInf, .negInf => .nan

/-- The part of a DOM client rect used by the coordinate conversions of
`WaveformCanvas.tsx`. -/
structure DomRect where
  left : JSNum
  width : JSNum
deriving DecidableEq, Repr

/-- Embedding of `pixelToTime` from `WaveformCanvas.tsx`: when the container
ref is `null` the function returns `0`; otherwise it computes
`rangeStart + ((pixelX - rect.left) / rect.width) * (rangeEnd - rangeStart)`.
The `visibleRange?.start ?? 0` / `visibleRange?.end ?? peaks.duration`
defaulting is modelled by passing the resolved `rangeStart`/`rangeEnd`. -/
def pixelToTime (container : Option DomRect) (rangeStart rangeEnd pixelX : JSNum) : JSNum :=
  match container with
  | none => .num 0
  | some rect =>
      let relativeX := jsSub pixelX rect.left
      let fraction := jsDiv relativeX rect.width
      let rangeDuration := jsSub rangeEnd rangeStart
      jsAdd rangeStart (jsMul fraction rangeDuration)

/-- Embedding of `pixelDistanceToTime` from `WaveformCanvas.tsx`:
`(pixelDistance / rect.width) * rangeDuration`, with `0` returned only when
the container ref is `null`. -/
def pixelDistanceToTime (container : Option DomRect) (rangeStart rangeEnd pixelDistance : JSNum) :
    JSNum :=
  match container with
  | none => .num 0
  | some rect =>
      let rangeDuration := jsSub rangeEnd rangeStart
      jsMul (jsDiv pixelDistance rect.width) rangeDuration

/-- Embedding of `timeToPixel` from `WaveformCanvas.tsx`:
`rect.left + ((time - rangeStart) / rangeDuration) * rect.width`, with `0`
returned only when the container ref is `null`. -/
def timeToPixel (container : Option DomRect) (rangeStart rangeEnd time : JSNum) : JSNum :=
  match container with
  | none => .num 0
  | some rect =>
      let rangeDuration := jsSub rangeEnd rangeStart
      let fraction := jsDiv (jsSub time rangeStart) rangeDuration
      jsAdd rect.left (jsMul fraction rect.width)

/-- Embedding of `getPixelX` from `MarkerControlStrip.tsx`, the one
time-to-pixel conversion in the sources that does guard a zero container
width: `if (containerWidth === 0) return 0`, otherwise
`((time - rangeStart) / rangeDuration) * containerWidth`. -/
def getPixelX (containerWidth rangeStart rangeEnd time : JSNum) : JSNum :=
  if containerWidth = .num 0 then .num 0
  else
    let rangeDuration := jsSub rangeEnd rangeStart
    let fraction := jsDiv (jsSub time rangeStart) rangeDuration
    jsMul fraction containerWidth

/-- A marker on the waveform timeline (`types/marker.ts`).  The source id is
an opaque unique string produced by `generateMarkerId`; it is modelled as a
natural number since only equality of ids is ever used.  The source field
`enabled?: boolean` is optional, but the store only ever writes concrete
booleans (`addMarker` writes `true`, `updateMarkerEnabled` the given flag),
so it is modelled as `Bool`. -/
structure Marker where
  id : ℕ
  time : ℚ
  name : String
  enabled : Bool
deriving DecidableEq, Repr

/-- Comparison used by `sortMarkersByTime`: the comparator
`(a, b) => a.time - b.time` orders markers by ascending time. -/
def markerLE (a b : Marker) : Prop := a.time ≤ b.time

instance : DecidableRel markerLE := fun a b => inferInstanceAs (Decidable (a.time ≤ b.time))

instance : IsTotal Marker markerLE := ⟨fun a b => le_total a.time b.time⟩

instance : IsTrans Marker markerLE := ⟨fun _ _ _ hab hbc => le_trans hab hbc⟩

/-- Embedding of `sortMarkersByTime` (`useMarkers.ts`):
`[...markers].sort((a, b) => a.time - b.time)`.  JavaScript `Array.sort` is a
stable ascending sort for this comparator, which insertion sort implements. -/
def sortMarkersByTime (markers : List Marker) : List Marker :=
  List.insertionSort markerLE markers

/-- Default marker used to make list indexing total; the source loop of
`getSections` only indexes in bounds. -/
def defaultMarker : Marker := ⟨0, 0, "", true⟩

/-- A derived section between two consecutive markers (`types/section.ts`). -/
structure Section where
  id : String
  startMarker : Marker
  endMarker : Marker
  startTime : ℚ
  endTime : ℚ
  name : String
deriving DecidableEq, Repr

/-- Section built from a consecutive marker pair, as in the loop body of
`getSections`: id `section-{startId}-{endId}`, times and name taken from the
two markers. -/
def mkSection (startMarker endMarker : Marker) : Section :=
  { id := "section-" ++ toString startMarker.id ++ "-" ++ toString endMarker.id
    startMarker := startMarker
    endMarker := endMarker
    startTime := startMarker.time
    endTime := endMarker.time
    name := startMarker.name }

/-- Default section used to make list indexing total. -/
def defaultSection : Section := mkSection defaultMarker defaultMarker

/-- Embedding of `getSections` (`utils/sections.ts`): with fewer than two
markers there are no sections; otherwise the markers are sorted by time and
one section is built for each consecutive pair `(sorted[i], sorted[i+1])`,
`i ∈ [0, length - 2]`. -/
def getSections (markers : List Marker) : List Section :=
  if markers.length < 2 then []
  else
    let sorted := sortMarkersByTime markers
    (List.range (sorted.length - 1)).map fun i =>
      mkSection (sorted.getD i defaultMarker) (sorted.getD (i + 1) defaultMarker)

/-- Section record of the current application code.  Modelled from the spec:
the version of `utils/sections.ts` consumed by `App.tsx` and
`useKeyboardControls.ts` is not among the sources (they read
`section.enabled`, a field absent from the older `types/section.ts` and
`getSections` that are present); per the spec the section additionally
carries `enabled = startMarker.enabled`. -/
structure AppSection where
  id : String
  startMarker : Marker
  endMarker : Marker
  startTime : ℚ
  endTime : ℚ
  name : String
  enabled : Bool
deriving DecidableEq, Repr

/-- Modelled from the spec: the section constructor of the current
`utils/sections.ts`, identical to `mkSection` except that it also copies
`enabled` from the start marker. -/
def mkAppSection (startMarker endMarker : Marker) : AppSection :=
  { id := "section-" ++ toString startMarker.id ++ "-" ++ toString endMarker.id
    startMarker := startMarker
    endMarker := endMarker
    startTime := startMarker.time
    endTime := endMarker.time
    name := startMarker.name
    enabled := startMarker.enabled }

/-- Modelled from the spec: the current `getSections` of `utils/sections.ts`
(missing from the sources, which hold an earlier version without the
`enabled` field); same derivation over consecutive sorted marker pairs. -/
def getSectionsCurrent (markers : List Marker) : List AppSection :=
  if markers.length < 2 then []
  else
    let sorted := sortMarkersByTime markers
    (List.range (sorted.length - 1)).map fun i =>
      mkAppSection (sorted.getD i defaultMarker) (sorted.getD (i + 1) defaultMarker)

/-- The fixed 36-symbol keyboard alphabet (`constants/keyboardMapping.ts`). -/
def KEY_ORDER : String := "1234567890qwertyuiopasdfghjklzxcvbnm"

/-- The alphabet as a character list. -/
def keyOrderList : List Char := KEY_ORDER.toList

/-- Index of the first occurrence of a character in a list, modelling
JavaScript `String.indexOf` applied to a single-character needle. -/
def indexOfChar (c : Char) : List Char → Option ℕ
  | [] => none
  | x :: xs => if x = c then some 0 else (indexOfChar c xs).map (· + 1)

/-- Embedding of `getKeyForIndex`: `undefined` for an index outside
`[0, 36)`, otherwise the alphabet character at that index. -/
def getKeyForIndex (index : ℤ) : Option Char :=
  if index < 0 ∨ (keyOrderList.length : ℤ) ≤ index then none
  else keyOrderList.get? index.toNat

/-- Embedding of `getIndexForKey`: `KEY_ORDER.indexOf(key.toLowerCase())`,
`-1` when absent.  The JavaScript argument is a string; within the program it
is always a single character (`handleKeyDown` filters on
`KEY_ORDER.includes(keyLower)` first), so the domain is `Char`, and
`toLowerCase` is modelled on the basic latin range by `Char.toLower`. -/
def getIndexForKey (key : Char) : ℤ :=
  match indexOfChar key.toLower keyOrderList with
  | some n => (n : ℤ)
  | none => -1

/-- Enabled-section filter used by both `handleKeyDown`
(`useKeyboardControls.ts`) and `getKeyboardIndexMap`
(`MarkerControlStrip.tsx`): `sections.filter(s => s.enabled)`. -/
def enabledSections (sections : List AppSection) : List AppSection :=
  sections.filter (·.enabled)

/-- Embedding of the section-playback branch of `handleKeyDown`
(`useKeyboardControls.ts`): when the lowercased key is in the alphabet, look
up its index, filter the sections to the enabled ones, and play the enabled
section at that index if it exists. -/
def resolveSectionKey (sections : List AppSection) (key : Char) : Option AppSection :=
  let keyLower := key.toLower
  if keyLower ∈ keyOrderList then
    let sectionIndex := getIndexForKey keyLower
    let enabled := enabledSections sections
    if (enabled.length : ℤ) ≤ sectionIndex then none
    else enabled.get? sectionIndex.toNat
  else none

/-- Embedding of `getKeyboardIndexMap` (`MarkerControlStrip.tsx`): an
association from section id to 1-based keyboard index for the enabled
sections in order, limited to indices below 9. -/
def getKeyboardIndexMap (sections : List AppSection) : List (String × ℕ) :=
  (enabledSections sections).enum.filterMap fun p =>
    if p.1 < 9 then some (p.2.id, p.1 + 1) else none

/-- State of the undo/redo engine (`useUndoRedo.ts`): the current value, the
stack of previous values (most recent last) and the stack of undone values
(most recent first). -/
structure UndoRedoState (T : Type) where
  present : T
  past : List T
  future : List T
deriving DecidableEq, Repr

/-- JavaScript `array.slice(-n)`: the last `n` elements, or the whole array
when `n = 0` (since `slice(-0) = slice(0)`). -/
def sliceLast {T : Type} (n : ℕ) (l : List T) : List T :=
  if n = 0 then l else l.drop (l.length - n)

/-- Default history bound (`DEFAULT_MAX_HISTORY` in `useUndoRedo.ts`). -/
def DEFAULT_MAX_HISTORY : ℕ := 50

/-- Embedding of `setState` (`useUndoRedo.ts`) applied to the resolved next
value.  The source skips the update when the new value is reference-equal to
the present one (`resolvedState === prev.present`); reference equality is not
structural, so it is passed as the oracle `refEqPresent`.  Every call from
the marker store builds a fresh array, hence passes `false`. -/
def setState {T : Type} (maxHistory : ℕ) (s : UndoRedoState T) (resolved : T)
    (refEqPresent : Bool) : UndoRedoState T :=
  if refEqPresent then s
  else
    { present := resolved
      past := sliceLast maxHistory (s.past ++ [s.present])
      future := [] }

/-- Modelled from the spec: `setStateWithoutHistory` of the current
`useUndoRedo.ts` (the sources hold only an earlier version of the hook
without it, plus its caller `useMarkers.ts`); it replaces `present` directly
and leaves `past` and `future` untouched. -/
def setStateWithoutHistory {T : Type} (s : UndoRedoState T) (resolved : T) : UndoRedoState T :=
  { s with present := resolved }

/-- Modelled from the spec: `setStateWithExplicitHistory(fromState, toState)`
of the current `useUndoRedo.ts` (missing from the sources); it pushes
`fromState` onto `past` (bounded by `maxHistory`), sets `present := toState`
and clears `future`, in one atomic step. -/
def setStateWithExplicitHistory {T : Type} (maxHistory : ℕ) (s : UndoRedoState T)
    (fromState toState : T) : UndoRedoState T :=
  { present := toState
    past := sliceLast maxHistory (s.past ++ [fromState])
    future := [] }

/-- Embedding of `undo` (`useUndoRedo.ts`): a no-op on empty `past`,
otherwise the last `past` entry becomes `present` and the former `present` is
pushed onto the front of `future`. -/
def undoStep {T : Type} (s : UndoRedoState T) : UndoRedoState T :=
  match s.past.getLast? with
  | none => s
  | some previousState =>
      { present := previousState
        past := s.past.dropLast
        future := s.present :: s.future }

/-- Embedding of `redo` (`useUndoRedo.ts`): a no-op on empty `future`,
otherwise the first `future` entry becomes `present` and the former `present`
is appended to `past`. -/
def redoStep {T : Type} (s : UndoRedoState T) : UndoRedoState T :=
  match s.future with
  | [] => s
  | x :: xs => { present := x, past := s.past ++ [s.present], future := xs }

/-- Embedding of `clearHistory` (`useUndoRedo.ts`). -/
def clearHistoryStep {T : Type} (s : UndoRedoState T) : UndoRedoState T :=
  { s with past := [], future := [] }

/-- Engine-level `canUndo`: `past.length > 0`. -/
def engineCanUndo {T : Type} (s : UndoRedoState T) : Bool :=
  decide (0 < s.past.length)

/-- Engine-level `canRedo`: `future.length > 0`. -/
def engineCanRedo {T : Type} (s : UndoRedoState T) : Bool :=
  decide (0 < s.future.length)

/-- Initial engine state, as produced by `useUndoRedo(initialState)`. -/
def initEngine {T : Type} (initialState : T) : UndoRedoState T :=
  { present := initialState, past := [], future := [] }

/-- One user-triggerable operation of the undo/redo engine.  `set` carries
the reference-equality oracle of `setState`; `setSilent` and `setExplicit`
are the (spec-modelled) historyless and explicit-history updates. -/
inductive EngineOp (T : Type) where
  | set (v : T) (refEqPresent : Bool)
  | setSilent (v : T)
  | setExplicit (fromState toState : T)
  | undo
  | redo
  | clear
deriving Repr

/-- Apply one engine operation. -/
def applyEngineOp {T : Type} (maxHistory : ℕ) (s : UndoRedoState T) : EngineOp T → UndoRedoState T
  | .set v r => setState maxHistory s v r
  | .setSilent v => setStateWithoutHistory s v
  | .setExplicit fromState toState => setStateWithExplicitHistory maxHistory s fromState toState
  | .undo => undoStep s
  | .redo => redoStep s
  | .clear => clearHistoryStep s

/-- Run a sequence of engine operations. -/
def runEngine {T : Type} (maxHistory : ℕ) (s : UndoRedoState T) (ops : List (EngineOp T)) :
    UndoRedoState T :=
  ops.foldl (applyEngineOp maxHistory) s

/-- State of the marker store (`useMarkers.ts`): the marker list wrapped in
the undo/redo engine (with the default history bound of 50), plus the
selected marker id. -/
structure MarkersStore where
  history : UndoRedoState (List Marker)
  selectedMarkerId : Option ℕ
deriving DecidableEq, Repr

/-- The store as created by `useMarkers()`: empty marker list, no history,
no selection. -/
def initialStore : MarkersStore :=
  { history := initEngine [], selectedMarkerId := none }

/-- The marker list read back from the store. -/
def storeMarkers (s : MarkersStore) : List Marker := s.history.present

/-- Store-level `canUndo`. -/
def canUndo (s : MarkersStore) : Bool := engineCanUndo s.history

/-- Store-level `canRedo`. -/
def canRedo (s : MarkersStore) : Bool := engineCanRedo s.history

/-- The map body shared by the update operations of `useMarkers.ts`:
`marker.id === id ? { ...marker, time } : marker`. -/
def setMarkerTime (id : ℕ) (time : ℚ) (m : Marker) : Marker :=
  if m.id = id then { m with time := time } else m

/-- Embedding of `addMarker` (`useMarkers.ts`): build a marker with a fresh
id (passed in, since `generateMarkerId` draws on the clock and randomness),
name `Section {length+1}` and `enabled: true`; append, re-sort, push history,
select the new marker. -/
def addMarker (newId : ℕ) (time : ℚ) (s : MarkersStore) : MarkersStore :=
  let newMarker : Marker :=
    { id := newId
      time := time
      name := "Section " ++ toString (s.history.present.length + 1)
      enabled := true }
  { history :=
      setState DEFAULT_MAX_HISTORY s.history
        (sortMarkersByTime (s.history.present ++ [newMarker])) false
    selectedMarkerId := some newId }

/-- Embedding of `updateMarker` (`useMarkers.ts`): historied time update
followed by a re-sort. -/
def updateMarker (id : ℕ) (time : ℚ) (s : MarkersStore) : MarkersStore :=
  { s with
    history :=
      setState DEFAULT_MAX_HISTORY s.history
        (sortMarkersByTime (s.history.present.map (setMarkerTime id time))) false }

/-- Embedding of `updateMarkerSilent` (`useMarkers.ts`): the identical
mutation through the historyless path. -/
def updateMarkerSilent (id : ℕ) (time : ℚ) (s : MarkersStore) : MarkersStore :=
  { s with
    history :=
      setStateWithoutHistory s.history
        (sortMarkersByTime (s.history.present.map (setMarkerTime id time))) }

/-- Embedding of `updateMarkerAtomic` (`useMarkers.ts`): compute the list
with the marker at `fromTime` and at `toTime` from the current committed
list, and commit both as one explicit history transition. -/
def updateMarkerAtomic (id : ℕ) (fromTime toTime : ℚ) (s : MarkersStore) : MarkersStore :=
  let fromState := sortMarkersByTime (s.history.present.map (setMarkerTime id fromTime))
  let toState := sortMarkersByTime (s.history.present.map (setMarkerTime id toTime))
  { s with
    history := setStateWithExplicitHistory DEFAULT_MAX_HISTORY s.history fromState toState }

/-- Store-level `undo`. -/
def undoStore (s : MarkersStore) : MarkersStore :=
  { s with history := undoStep s.history }

/-- Store-level `redo`. -/
def redoStore (s : MarkersStore) : MarkersStore :=
  { s with history := redoStep s.history }

/-- Time of the first marker with the given id, if any. -/
def findMarkerTime (id : ℕ) (s : MarkersStore) : Option ℚ :=
  (s.history.present.find? (fun m => m.id == id)).map (·.time)

/-- One store operation of the kind quantified over by the sort invariant:
`addMarker` (with its freshly generated id) or `updateMarker`. -/
inductive MarkerOp where
  | add (newId : ℕ) (time : ℚ)
  | update (id : ℕ) (time : ℚ)
deriving Repr

/-- Apply one store operation. -/
def applyMarkerOp (s : MarkersStore) : MarkerOp → MarkersStore
  | .add newId time => addMarker newId time s
  | .update id time => updateMarker id time s

/-- Run a sequence of store operations. -/
def runMarkerOps (s : MarkersStore) (ops : List MarkerOp) : MarkersStore :=
  ops.foldl applyMarkerOp s

/-- The ids carried by the `add` operations of a sequence, in order. -/
def opAddIds : List MarkerOp → List ℕ
  | [] => []
  | .add newId _ :: rest => newId :: opAddIds rest
  | .update _ _ :: rest => opAddIds rest

/-- Embedding of `clampZoom` (`useZoom.ts`):
`Math.max(minZoom, Math.min(maxZoom, level))`. -/
def clampZoom (minZoom maxZoom level : ℚ) : ℚ :=
  max minZoom (min maxZoom level)

/-- Embedding of `getVisibleDuration` (`useZoom.ts`): `duration / zoom`. -/
def getVisibleDuration (duration zoom : ℚ) : ℚ := duration / zoom

/-- Embedding of `clampPan` (`useZoom.ts`):
`Math.max(0, Math.min(maxPan, offset))` with
`maxPan = Math.max(0, duration - visibleDuration)`. -/
def clampPan (duration offset zoom : ℚ) : ℚ :=
  max 0 (min (max 0 (duration - getVisibleDuration duration zoom)) offset)

/-- The visible time range (`useZoom.ts`); the source field `end` is a Lean
keyword and is named `stop` here. -/
structure VisibleRange where
  start : ℚ
  stop : ℚ
  rangeDuration : ℚ
deriving DecidableEq, Repr

/-- Embedding of the `visibleRange` memo (`useZoom.ts`):
`start = panOffset`, `end = Math.min(panOffset + visibleDuration, duration)`. -/
def visibleRange (duration zoom panOffset : ℚ) : VisibleRange :=
  let visibleDuration := getVisibleDuration duration zoom
  let start := panOffset
  let stop := min (panOffset + visibleDuration) duration
  { start := start, stop := stop, rangeDuration := stop - start }

/-- Embedding of `setPan` (`useZoom.ts`): the requested offset clamped
against the current zoom level. -/
def setPan (duration zoom requested : ℚ) : ℚ :=
  clampPan duration requested zoom

/-- Concrete section starting at time 5, enabled (input of the keyboard
mapping example). -/
def secAt5 : AppSection :=
  { id := "sec-5", startMarker := defaultMarker, endMarker := defaultMarker
    startTime := 5, endTime := 6, name := "five", enabled := true }

/-- Concrete section starting at time 2, disabled. -/
def secAt2 : AppSection :=
  { id := "sec-2", startMarker := defaultMarker, endMarker := defaultMarker
    startTime := 2, endTime := 3, name := "two", enabled := false }

/-- Concrete section starting at time 8, enabled. -/
def secAt8 : AppSection :=
  { id := "sec-8", startMarker := defaultMarker, endMarker := defaultMarker
    startTime := 8, endTime := 9, name := "eight", enabled := true }

/-- Marker ids of a list, in order. -/
def idsOf (l : List Marker) : List ℕ := l.map (·.id)

section HelperLemmas

theorem perm_sortMarkersByTime (l : List Marker) : List.Perm (sortMarkersByTime l) l :=
  List.perm_insertionSort markerLE l

theorem length_sortMarkersByTime (l : List Marker) :
    (sortMarkersByTime l).length = l.length :=
  (perm_sortMarkersByTime l).length_eq

theorem mem_sortMarkersByTime {m : Marker} {l : List Marker} :
    m ∈ sortMarkersByTime l ↔ m ∈ l :=
  (perm_sortMarkersByTime l).mem_iff

theorem sorted_sortMarkersByTime (l : List Marker) :
    List.Sorted markerLE (sortMarkersByTime l) :=
  List.sorted_insertionSort markerLE l

theorem setMarkerTime_id (id : ℕ) (t : ℚ) (m : Marker) :
    (setMarkerTime id t m).id = m.id := by
  unfold setMarkerTime
  split <;> rfl

theorem idsOf_map_setMarkerTime (id : ℕ) (t : ℚ) (l : List Marker) :
    idsOf (l.map (setMarkerTime id t)) = idsOf l := by
  unfold idsOf
  rw [List.map_map]
  exact List.map_congr_left fun m _ => setMarkerTime_id id t m

theorem getSections_length (ms : List Marker) :
    (getSections ms).length = ms.length - 1 := by
  unfold getSections
  by_cases h : ms.length < 2
  · rw [if_pos h]
    simp only [List.length_nil]
    omega
  · rw [if_neg h]
    simp [length_sortMarkersByTime]

theorem getSections_getD (ms : List Marker) (i : ℕ) (hi : i < ms.length - 1) :
    (getSections ms).getD i defaultSection =
      mkSection ((sortMarkersByTime ms).getD i defaultMarker)
        ((sortMarkersByTime ms).getD (i + 1) defaultMarker) := by
  have h2 : ¬ ms.length < 2 := by omega
  unfold getSections
  rw [if_neg h2]
  have hlen : (sortMarkersByTime ms).length = ms.length := length_sortMarkersByTime ms
  have hi' : i < (sortMarkersByTime ms).length - 1 := by omega
  simp [List.getElem?_map, List.getElem?_range hi']

theorem mem_getSections {ms : List Marker} {sec : Section} (h : sec ∈ getSections ms) :
    ∃ i < (sortMarkersByTime ms).length - 1,
      sec = mkSection ((sortMarkersByTime ms).getD i defaultMarker)
        ((sortMarkersByTime ms).getD (i + 1) defaultMarker) := by
  unfold getSections at h
  split at h
  · simp at h
  · obtain ⟨i, hi, rfl⟩ := List.mem_map.mp h
    exact ⟨i, List.mem_range.mp hi, rfl⟩

theorem mem_getSectionsCurrent {ms : List Marker} {sec : AppSection}
    (h : sec ∈ getSectionsCurrent ms) :
    ∃ i < (sortMarkersByTime ms).length - 1,
      sec = mkAppSection ((sortMarkersByTime ms).getD i defaultMarker)
        ((sortMarkersByTime ms).getD (i + 1) defaultMarker) := by
  unfold getSectionsCurrent at h
  split at h
  · simp at h
  · obtain ⟨i, hi, rfl⟩ := List.mem_map.mp h
    exact ⟨i, List.mem_range.mp hi, rfl⟩

theorem indexOfChar_eq_none_iff (c : Char) : ∀ l : List Char, indexOfChar c l = none ↔ c ∉ l
  | [] => by simp [indexOfChar]
  | x :: xs => by
    unfold indexOfChar
    by_cases hx : x = c
    · simp [hx]
    · simp only [if_neg hx, Option.map_eq_none', List.mem_cons]
      rw [indexOfChar_eq_none_iff c xs]
      constructor
      · intro h hc
        rcases hc with hc | hc
        · exact hx hc.symm
        · exact h hc
      · intro h hc
        exact h (Or.inr hc)

theorem indexOfChar_of_mem {c : Char} {l : List Char} (h : c ∈ l) :
    ∃ n : ℕ, indexOfChar c l = some n := by
  cases hx : indexOfChar c l with
  | none => exact absurd h ((indexOfChar_eq_none_iff c l).mp hx)
  | some n => exact ⟨n, rfl⟩

theorem keyOrderList_length : keyOrderList.length = 36 := rfl

theorem keyOrder_toLower_fixed : ∀ c ∈ keyOrderList, c.toLower = c := by decide

theorem findMarkerTime_sorted_set (id : ℕ) (t : ℚ) (l : List Marker)
    (h : ∃ m ∈ l, m.id = id) :
    ((sortMarkersByTime (l.map (setMarkerTime id t))).find? (fun m => m.id == id)).map (·.time)
      = some t := by
  obtain ⟨m₀, hm₀, hid₀⟩ := h
  have hall : ∀ m ∈ sortMarkersByTime (l.map (setMarkerTime id t)), m.id = id → m.time = t := by
    intro m hm hmid
    rw [mem_sortMarkersByTime] at hm
    obtain ⟨m₁, _, rfl⟩ := List.mem_map.mp hm
    unfold setMarkerTime at hmid ⊢
    by_cases h1 : m₁.id = id
    · rw [if_pos h1]
    · rw [if_neg h1] at hmid
      exact absurd hmid h1
  have hex : ∃ m, m ∈ sortMarkersByTime (l.map (setMarkerTime id t)) ∧
      (fun m => m.id == id) m = true := by
    refine ⟨setMarkerTime id t m₀, mem_sortMarkersByTime.mpr (List.mem_map_of_mem _ hm₀), ?_⟩
    simp [setMarkerTime_id, hid₀]
  have hsome := List.find?_isSome.mpr hex
  cases hfind : (sortMarkersByTime (l.map (setMarkerTime id t))).find? (fun m => m.id == id) with
  | none => rw [hfind] at hsome; exact absurd hsome (by simp)
  | some m =>
    have hpm : m.id = id := by simpa using List.find?_some hfind
    have hmem := List.mem_of_find?_eq_some hfind
    simp [hall m hmem hpm]

theorem existsId_sorted_set (id : ℕ) (t : ℚ) (l : List Marker) (h : ∃ m ∈ l, m.id = id) :
    ∃ m ∈ sortMarkersByTime (l.map (setMarkerTime id t)), m.id = id := by
  obtain ⟨m₀, hm₀, hid₀⟩ := h
  refine ⟨setMarkerTime id t m₀, mem_sortMarkersByTime.mpr (List.mem_map_of_mem _ hm₀), ?_⟩
  rw [setMarkerTime_id]
  exact hid₀

theorem runSilents_state (id : ℕ) (silents : List ℚ) :
    ∀ s : MarkersStore,
      (silents.foldl (fun st t => updateMarkerSilent id t st) s).history.past
          = s.history.past ∧
      (silents.foldl (fun st t => updateMarkerSilent id t st) s).history.future
          = s.history.future ∧
      ((∃ m ∈ s.history.present, m.id = id) →
        ∃ m ∈ (silents.foldl (fun st t => updateMarkerSilent id t st) s).history.present,
          m.id = id) := by
  induction silents with
  | nil => exact fun s => ⟨rfl, rfl, fun h => h⟩
  | cons t rest ih =>
    intro s
    have hstep := ih (updateMarkerSilent id t s)
    refine ⟨hstep.1, hstep.2.1, fun h => hstep.2.2 ?_⟩
    exact existsId_sorted_set id t s.history.present h

theorem sliceLast_concat {T : Type} (n : ℕ) (hn : n ≠ 0) (l : List T) (x : T) :
    sliceLast n (l ++ [x]) = l.drop (l.length + 1 - n) ++ [x] := by
  unfold sliceLast
  rw [if_neg hn]
  have hk : l.length + 1 - n ≤ l.length := by omega
  rw [List.length_append, List.length_singleton]
  exact List.drop_append_of_le_length hk

theorem undoStep_concat {T : Type} (q : List T) (p x : T) (fut : List T) :
    undoStep ⟨p, q ++ [x], fut⟩ = ⟨x, q, p :: fut⟩ := by
  unfold undoStep
  rw [show (⟨p, q ++ [x], fut⟩ : UndoRedoState T).past = q ++ [x] from rfl,
    List.getLast?_concat]
  simp [List.dropLast_concat]

theorem sliceLast_concat_idem {T : Type} (n : ℕ) (hn : n ≠ 0) (l : List T) (x : T) :
    sliceLast n (sliceLast n l ++ [x]) = sliceLast n (l ++ [x]) := by
  unfold sliceLast
  rw [if_neg hn, if_neg hn, if_neg hn]
  simp only [List.length_append, List.length_singleton, List.length_drop]
  have h1 : l.length - (l.length - n) + 1 - n ≤ (List.drop (l.length - n) l).length := by
    rw [List.length_drop]
    omega
  have h2 : l.length + 1 - n ≤ l.length := by omega
  rw [List.drop_append_of_le_length h1, List.drop_append_of_le_length h2, List.drop_drop]
  congr 2
  omega

theorem sliceLast_length_le {T : Type} (n : ℕ) (hn : n ≠ 0) (l : List T) :
    (sliceLast n l).length ≤ n := by
  unfold sliceLast
  rw [if_neg hn, List.length_drop]
  omega

theorem applyEngineOp_capacity {T : Type} (op : EngineOp T) (s : UndoRedoState T)
    (h : s.past.length + s.future.length ≤ 50) :
    (applyEngineOp 50 s op).past.length + (applyEngineOp 50 s op).future.length ≤ 50 := by
  cases op with
  | set v r =>
    cases r with
    | true => simpa [applyEngineOp, setState] using h
    | false =>
      have := sliceLast_length_le 50 (by norm_num) (s.past ++ [s.present])
      simp only [applyEngineOp, setState, if_neg Bool.false_ne_true, List.length_nil]
      omega
  | setSilent v => simpa [applyEngineOp, setStateWithoutHistory] using h
  | setExplicit a b =>
    have := sliceLast_length_le 50 (by norm_num) (s.past ++ [a])
    simp only [applyEngineOp, setStateWithExplicitHistory, List.length_nil]
    omega
  | undo =>
    simp only [applyEngineOp, undoStep]
    cases hlast : s.past.getLast? with
    | none => simpa using h
    | some x =>
      have hne : s.past ≠ [] := by
        intro habs
        rw [habs] at hlast
        exact Option.noConfusion hlast
      have hpos : 0 < s.past.length := List.length_pos.mpr hne
      simp only [List.length_dropLast, List.length_cons]
      omega
  | redo =>
    simp only [applyEngineOp, redoStep]
    cases hf : s.future with
    | nil => simpa [hf] using h
    | cons x xs =>
      rw [hf] at h
      simp only [List.length_append, List.length_singleton, List.length_cons,
        List.length_nil] at h ⊢
      omega
  | clear => simp [applyEngineOp, clearHistoryStep]

theorem runEngine_capacity {T : Type} (ops : List (EngineOp T)) :
    ∀ s : UndoRedoState T, s.past.length + s.future.length ≤ 50 →
      (runEngine 50 s ops).past.length + (runEngine 50 s ops).future.length ≤ 50 := by
  induction ops with
  | nil => exact fun s h => h
  | cons op rest ih =>
    intro s h
    exact ih (applyEngineOp 50 s op) (applyEngineOp_capacity op s h)

theorem runEngine_sets {T : Type} (v : ℕ → T) : ∀ n : ℕ,
    runEngine 50 (initEngine (v 0)) ((List.range n).map fun i => EngineOp.set (v (i + 1)) false)
      = ⟨v n, sliceLast 50 ((List.range n).map v), []⟩ := by
  intro n
  induction n with
  | zero => simp [runEngine, initEngine, sliceLast]
  | succ m ih =>
    have hsplit : (List.range (m + 1)).map (fun i => EngineOp.set (v (i + 1)) false)
        = ((List.range m).map fun i => EngineOp.set (v (i + 1)) false)
          ++ [EngineOp.set (v (m + 1)) false] := by
      rw [List.range_succ, List.map_append, List.map_singleton]
    rw [hsplit]
    unfold runEngine at ih ⊢
    rw [List.foldl_append, ih, List.foldl_cons, List.foldl_nil]
    show (⟨v (m + 1), sliceLast 50 (sliceLast 50 ((List.range m).map v) ++ [v m]), []⟩ :
        UndoRedoState T) = _
    rw [sliceLast_concat_idem 50 (by norm_num)]
    rw [show (List.range (m + 1)).map v = (List.range m).map v ++ [v m] by
      rw [List.range_succ, List.map_append, List.map_singleton]]

theorem undoStep_iterate_range {T : Type} (v : ℕ → T) :
    ∀ (n : ℕ) (p : T) (fut : List T), 0 < n →
      undoStep^[n] ⟨p, (List.range n).map v, fut⟩
        = ⟨v 0, [], ((List.range (n - 1)).map fun i => v (i + 1)) ++ p :: fut⟩ := by
  intro n
  induction n with
  | zero => exact fun p fut h => absurd h (by omega)
  | succ m ih =>
    intro p fut _
    rw [Function.iterate_succ_apply]
    rw [show (List.range (m + 1)).map v = (List.range m).map v ++ [v m] by
      rw [List.range_succ, List.map_append, List.map_singleton]]
    rw [undoStep_concat]
    by_cases hm : m = 0
    · subst hm
      simp
    · rw [ih (v m) (p :: fut) (by omega)]
      congr 1
      simp only [Nat.add_sub_cancel]
      rw [show List.range m = List.range (m - 1) ++ [m - 1] by
        rw [← List.range_succ]
        congr 1
        omega]
      rw [List.map_append, List.map_singleton, List.append_assoc, List.singleton_append]
      congr 3
      omega

theorem fiftyone_edits_state {T : Type} (v : ℕ → T) :
    runEngine 50 (initEngine (v 0)) ((List.range 51).map fun i => EngineOp.set (v (i + 1)) false)
      = ⟨v 51, (List.range 50).map fun i => v (i + 1), []⟩ := by
  rw [runEngine_sets v 51]
  unfold sliceLast
  rw [if_neg (by norm_num : (50 : ℕ) ≠ 0)]
  rw [List.length_map, List.length_range]
  norm_num
  rw [List.range_succ_eq_map, List.map_cons, List.map_map]
  rfl

theorem store_invariant (ops : List MarkerOp) :
    ∀ s : MarkersStore, List.Sorted markerLE s.history.present →
      (idsOf s.history.present ++ opAddIds ops).Nodup →
      List.Sorted markerLE (runMarkerOps s ops).history.present ∧
        (idsOf (runMarkerOps s ops).history.present).Nodup := by
  induction ops with
  | nil =>
    intro s hs hn
    refine ⟨hs, ?_⟩
    rw [show opAddIds [] = [] from rfl, List.append_nil] at hn
    exact hn
  | cons op rest ih =>
    intro s hs hn
    show List.Sorted markerLE (runMarkerOps (applyMarkerOp s op) rest).history.present ∧ _
    cases op with
    | add newId t =>
      apply ih
      · exact sorted_sortMarkersByTime _
      · show (idsOf (sortMarkersByTime (s.history.present
            ++ [⟨newId, t, "Section " ++ toString (s.history.present.length + 1), true⟩]))
              ++ opAddIds rest).Nodup
        have hmap : idsOf (s.history.present
              ++ [⟨newId, t, "Section " ++ toString (s.history.present.length + 1), true⟩])
            = idsOf s.history.present ++ [newId] := by
          unfold idsOf
          rw [List.map_append, List.map_singleton]
        have hperm : List.Perm
            (idsOf (sortMarkersByTime (s.history.present
                ++ [⟨newId, t, "Section " ++ toString (s.history.present.length + 1), true⟩]))
              ++ opAddIds rest)
            ((idsOf s.history.present ++ [newId]) ++ opAddIds rest) := by
          apply List.Perm.append_right
          rw [← hmap]
          exact (perm_sortMarkersByTime _).map _
        rw [List.Perm.nodup_iff hperm, List.append_assoc, List.singleton_append]
        exact hn
    | update id t =>
      apply ih
      · exact sorted_sortMarkersByTime _
      · show (idsOf (sortMarkersByTime (s.history.present.map (setMarkerTime id t)))
            ++ opAddIds rest).Nodup
        have h1 : List.Perm (idsOf (sortMarkersByTime (s.history.present.map (setMarkerTime id t))))
            (idsOf (s.history.present.map (setMarkerTime id t))) :=
          (perm_sortMarkersByTime _).map _
        rw [idsOf_map_setMarkerTime] at h1
        have hperm := h1.append_right (opAddIds rest)
        rw [List.Perm.nodup_iff hperm]
        exact hn

end HelperLemmas

/-- C2: for every marker list of length `N`, `getSections` returns exactly
`max(0, N-1)` sections; fewer than two markers yield the empty list; and for
every `i < N-1` the `i`-th section's start marker is the `i`-th marker of the
list sorted ascending by time and its end marker is the `(i+1)`-th. -/
theorem section_count_and_bounds (ms : List Marker) :
    (getSections ms).length = ms.length - 1 ∧
    (ms.length < 2 → getSections ms = []) ∧
    ∀ i : ℕ, i < ms.length - 1 →
      ((getSections ms).getD i defaultSection).startMarker
          = (sortMarkersByTime ms).getD i defaultMarker ∧
      ((getSections ms).getD i defaultSection).endMarker
          = (sortMarkersByTime ms).getD (i + 1) defaultMarker := by
  refine ⟨getSections_length ms, fun h => ?_, fun i hi => ?_⟩
  · unfold getSections
    rw [if_pos h]
  · rw [getSections_getD ms i hi]
    exact ⟨rfl, rfl⟩

/-- Closed instance of `section_count_and_bounds` at a concrete three-marker
list and index. -/
theorem section_count_and_bounds_witness :
    (getSections [⟨1, 5, "A", true⟩, ⟨2, 2, "B", true⟩, ⟨3, 8, "C", true⟩]).length = 2 ∧
    ((getSections [⟨1, 5, "A", true⟩, ⟨2, 2, "B", true⟩, ⟨3, 8, "C", true⟩]).getD 0
        defaultSection).startMarker
      = (sortMarkersByTime [⟨1, 5, "A", true⟩, ⟨2, 2, "B", true⟩, ⟨3, 8, "C", true⟩]).getD 0
          defaultMarker := by
  have h := section_count_and_bounds [⟨1, 5, "A", true⟩, ⟨2, 2, "B", true⟩, ⟨3, 8, "C", true⟩]
  exact ⟨h.1, (h.2.2 0 (by decide)).1⟩

/-- C3: every section produced by the current section deriver inherits its
name and its enabled flag from its start marker. -/
theorem section_inherits_start_marker_fields (ms : List Marker) :
    ∀ sec ∈ getSectionsCurrent ms,
      sec.name = sec.startMarker.name ∧ sec.enabled = sec.startMarker.enabled := by
  intro sec hsec
  obtain ⟨i, _, rfl⟩ := mem_getSectionsCurrent hsec
  exact ⟨rfl, rfl⟩

/-- Closed instance of `section_inherits_start_marker_fields` at a concrete
two-marker list. -/
theorem section_inherits_start_marker_fields_witness :
    (mkAppSection ⟨1, 0, "Intro", true⟩ ⟨2, 4, "B", false⟩).name
        = (mkAppSection ⟨1, 0, "Intro", true⟩ ⟨2, 4, "B", false⟩).startMarker.name ∧
    (mkAppSection ⟨1, 0, "Intro", true⟩ ⟨2, 4, "B", false⟩).enabled
        = (mkAppSection ⟨1, 0, "Intro", true⟩ ⟨2, 4, "B", false⟩).startMarker.enabled :=
  section_inherits_start_marker_fields [⟨1, 0, "Intro", true⟩, ⟨2, 4, "B", false⟩]
    (mkAppSection ⟨1, 0, "Intro", true⟩ ⟨2, 4, "B", false⟩) (by decide)

/-- C9: consecutive sections derived from any marker list share their
boundary marker (hence their boundary time), and every section runs forward
in time (`startTime ≤ endTime`). -/
theorem section_contiguity (ms : List Marker) :
    (∀ i : ℕ, i + 1 < (getSections ms).length →
      ((getSections ms).getD i defaultSection).endMarker
          = ((getSections ms).getD (i + 1) defaultSection).startMarker ∧
      ((getSections ms).getD i defaultSection).endTime
          = ((getSections ms).getD (i + 1) defaultSection).startTime) ∧
    ∀ sec ∈ getSections ms, sec.startTime ≤ sec.endTime := by
  constructor
  · intro i hi
    rw [getSections_length ms] at hi
    rw [getSections_getD ms i (by omega), getSections_getD ms (i + 1) (by omega)]
    exact ⟨rfl, rfl⟩
  · intro sec hsec
    obtain ⟨i, hi, rfl⟩ := mem_getSections hsec
    have hsorted := sorted_sortMarkersByTime ms
    have hi1 : i < (sortMarkersByTime ms).length := by omega
    have hi2 : i + 1 < (sortMarkersByTime ms).length := by omega
    have hrel :
        markerLE ((sortMarkersByTime ms).get ⟨i, hi1⟩) ((sortMarkersByTime ms).get ⟨i + 1, hi2⟩) :=
      hsorted.rel_get_of_lt (by simp)
    show ((sortMarkersByTime ms).getD i defaultMarker).time
        ≤ ((sortMarkersByTime ms).getD (i + 1) defaultMarker).time
    rw [List.getD_eq_getElem?_getD, List.getD_eq_getElem?_getD,
      List.getElem?_eq_getElem hi1, List.getElem?_eq_getElem hi2]
    exact hrel

/-- Closed instance of `section_contiguity` at a concrete three-marker
list. -/
theorem section_contiguity_witness :
    ((getSections [⟨1, 5, "A", true⟩, ⟨2, 2, "B", true⟩, ⟨3, 8, "C", true⟩]).getD 0
        defaultSection).endMarker
      = ((getSections [⟨1, 5, "A", true⟩, ⟨2, 2, "B", true⟩, ⟨3, 8, "C", true⟩]).getD 1
          defaultSection).startMarker ∧
    (mkSection ⟨2, 2, "B", true⟩ ⟨1, 5, "A", true⟩).startTime
      ≤ (mkSection ⟨2, 2, "B", true⟩ ⟨1, 5, "A", true⟩).endTime := by
  have h := section_contiguity [⟨1, 5, "A", true⟩, ⟨2, 2, "B", true⟩, ⟨3, 8, "C", true⟩]
  refine ⟨(h.1 0 (by decide)).1, h.2 (mkSection ⟨2, 2, "B", true⟩ ⟨1, 5, "A", true⟩) (by decide)⟩

/-- C7: for any requested zoom level (clamped into `[minZoom, maxZoom]` with
`minZoom ≥ 1`) and any requested pan offset passed to `setPan`, the derived
visible range starts at or after `0` and ends at or before `duration`. -/
theorem pan_clamping (duration minZoom maxZoom z offset : ℚ)
    (hdur : 0 ≤ duration) (hmin : 1 ≤ minZoom) :
    0 ≤ (visibleRange duration (clampZoom minZoom maxZoom z)
          (setPan duration (clampZoom minZoom maxZoom z) offset)).start ∧
    (visibleRange duration (clampZoom minZoom maxZoom z)
          (setPan duration (clampZoom minZoom maxZoom z) offset)).stop ≤ duration := by
  constructor
  · show (0 : ℚ) ≤ setPan duration (clampZoom minZoom maxZoom z) offset
    unfold setPan clampPan
    exact le_max_left 0 _
  · show min _ duration ≤ duration
    exact min_le_right _ duration

/-- Closed instance of `pan_clamping` at concrete values. -/
theorem pan_clamping_witness :
    0 ≤ (visibleRange 100 (clampZoom 1 100 2) (setPan 100 (clampZoom 1 100 2) 500)).start ∧
    (visibleRange 100 (clampZoom 1 100 2) (setPan 100 (clampZoom 1 100 2) 500)).stop ≤ 100 :=
  pan_clamping 100 1 100 2 500 (by norm_num) (by norm_num)

/-- C8 counterexample: with a present container of width `0`, `pixelToTime`
returns `NaN` (at `pixelX = rect.left`) or `Infinity` (elsewhere), and
`pixelDistanceToTime` returns `Infinity` — not `0` as claimed. -/
theorem zero_width_conversions_not_zero :
    pixelToTime (some ⟨JSNum.num 0, JSNum.num 0⟩) (JSNum.num 0) (JSNum.num 10) (JSNum.num 0)
        = JSNum.nan ∧
    pixelToTime (some ⟨JSNum.num 0, JSNum.num 0⟩) (JSNum.num 0) (JSNum.num 10) (JSNum.num 3)
        = JSNum.posInf ∧
    pixelDistanceToTime (some ⟨JSNum.num 0, JSNum.num 0⟩) (JSNum.num 0) (JSNum.num 10)
        (JSNum.num 5) = JSNum.posInf ∧
    pixelToTime (some ⟨JSNum.num 0, JSNum.num 0⟩) (JSNum.num 0) (JSNum.num 10) (JSNum.num 0)
        ≠ JSNum.num 0 := by
  have h1 : pixelToTime (some ⟨JSNum.num 0, JSNum.num 0⟩) (JSNum.num 0) (JSNum.num 10)
      (JSNum.num 0) = JSNum.nan := by
    norm_num [pixelToTime, jsSub, jsNeg, jsAdd, jsDiv, jsMul]
  refine ⟨h1, ?_, ?_, ?_⟩
  · norm_num [pixelToTime, jsSub, jsNeg, jsAdd, jsDiv, jsMul]
  · norm_num [pixelDistanceToTime, jsSub, jsNeg, jsAdd, jsDiv, jsMul]
  · rw [h1]
    decide

/-- C8 amended: the `WaveformCanvas` conversions return `0` only when the
container ref is `null` (for every argument); the only conversion guarding a
zero container width is `getPixelX` of `MarkerControlStrip`, which returns
`0` for width `0` for every argument. -/
theorem conversions_null_container_guard :
    (∀ rangeStart rangeEnd pixelX : JSNum,
        pixelToTime none rangeStart rangeEnd pixelX = JSNum.num 0) ∧
    (∀ rangeStart rangeEnd pixelDistance : JSNum,
        pixelDistanceToTime none rangeStart rangeEnd pixelDistance = JSNum.num 0) ∧
    (∀ rangeStart rangeEnd time : JSNum,
        timeToPixel none rangeStart rangeEnd time = JSNum.num 0) ∧
    (∀ rangeStart rangeEnd time : JSNum,
        getPixelX (JSNum.num 0) rangeStart rangeEnd time = JSNum.num 0) :=
  ⟨fun _ _ _ => rfl, fun _ _ _ => rfl, fun _ _ _ => rfl, fun _ _ _ => rfl⟩

/-- C10: indices below 36 round-trip through `getKeyForIndex` and
`getIndexForKey`; indices outside `[0, 36)` have no key; lookup is
case-insensitive on the letters; and `getIndexForKey` returns `-1` exactly
when the lowercased character is not in the 36-symbol alphabet. -/
theorem keyboard_alphabet_round_trip :
    (∀ i : ℕ, i < 36 → (getKeyForIndex (i : ℤ)).map getIndexForKey = some (i : ℤ)) ∧
    (∀ index : ℤ, index < 0 ∨ 36 ≤ index → getKeyForIndex index = none) ∧
    (∀ c ∈ "QWERTYUIOPASDFGHJKLZXCVBNM".toList,
        getIndexForKey c = getIndexForKey c.toLower ∧ getIndexForKey c ≠ -1) ∧
    (∀ c : Char, getIndexForKey c = -1 ↔ c.toLower ∉ keyOrderList) := by
  refine ⟨by decide, fun index h => ?_, by decide, fun c => ?_⟩
  · unfold getKeyForIndex
    rw [if_pos]
    rw [keyOrderList_length]
    exact_mod_cast h
  · unfold getIndexForKey
    cases hx : indexOfChar c.toLower keyOrderList with
    | none =>
      exact iff_of_true rfl ((indexOfChar_eq_none_iff c.toLower keyOrderList).mp hx)
    | some n =>
      have hmem : c.toLower ∈ keyOrderList := by
        by_contra habs
        rw [(indexOfChar_eq_none_iff c.toLower keyOrderList).mpr habs] at hx
        exact Option.noConfusion hx
      show (n : ℤ) = -1 ↔ c.toLower ∉ keyOrderList
      exact iff_of_false (by omega) (not_not_intro hmem)

/-- Closed instance of `keyboard_alphabet_round_trip` at concrete inputs. -/
theorem keyboard_alphabet_round_trip_witness :
    (getKeyForIndex ((9 : ℕ) : ℤ)).map getIndexForKey = some ((9 : ℕ) : ℤ) ∧
    getKeyForIndex 36 = none ∧
    getIndexForKey 'Q' = getIndexForKey 'Q'.toLower := by
  have h := keyboard_alphabet_round_trip
  exact ⟨h.1 9 (by decide), h.2.1 36 (by decide), (h.2.2.1 'Q' (by decide)).1⟩

/-- C4: on the three-section input of the claim, the keyboard map assigns
index 1 (key `1`) to the enabled section starting at 5 and index 2 (key `2`)
to the enabled section starting at 8, while the disabled section starting at
2 receives nothing; pressing a mapped symbol resolves to the enabled section
at the symbol's alphabet index, and a symbol outside the alphabet or beyond
the enabled sections resolves to nothing. -/
theorem keyboard_mapping_compacts_enabled :
    getKeyboardIndexMap [secAt5, secAt2, secAt8] = [("sec-5", 1), ("sec-8", 2)] ∧
    List.lookup "sec-2" (getKeyboardIndexMap [secAt5, secAt2, secAt8]) = none ∧
    resolveSectionKey [secAt5, secAt2, secAt8] '1' = some secAt5 ∧
    resolveSectionKey [secAt5, secAt2, secAt8] '2' = some secAt8 ∧
    resolveSectionKey [secAt5, secAt2, secAt8] '3' = none ∧
    (∀ (sections : List AppSection) (key : Char), key.toLower ∈ keyOrderList →
        resolveSectionKey sections key
          = (enabledSections sections).get? (getIndexForKey key.toLower).toNat) ∧
    (∀ (sections : List AppSection) (key : Char), key.toLower ∉ keyOrderList →
        resolveSectionKey sections key = none) := by
  refine ⟨by decide, by decide, by decide, by decide, by decide,
    fun sections key hmem => ?_, fun sections key hmem => ?_⟩
  · unfold resolveSectionKey
    rw [if_pos hmem]
    by_cases hle : ((enabledSections sections).length : ℤ) ≤ getIndexForKey key.toLower
    · rw [if_pos hle]
      have hfix : key.toLower.toLower = key.toLower := keyOrder_toLower_fixed key.toLower hmem
      have hmem2 : key.toLower.toLower ∈ keyOrderList := by
        rw [hfix]
        exact hmem
      obtain ⟨n, hn⟩ := indexOfChar_of_mem hmem2
      have hidx : getIndexForKey key.toLower = (n : ℤ) := by
        unfold getIndexForKey
        rw [hn]
      rw [hidx] at hle ⊢
      have : (enabledSections sections).length ≤ n := by exact_mod_cast hle
      rw [eq_comm, List.get?_eq_none]
      simpa using this
    · rw [if_neg hle]
  · unfold resolveSectionKey
    rw [if_neg hmem]

/-- Closed instance of `keyboard_mapping_compacts_enabled` at concrete
inputs. -/
theorem keyboard_mapping_compacts_enabled_witness :
    resolveSectionKey [] 'q'
        = (enabledSections []).get? (getIndexForKey 'q'.toLower).toNat ∧
    resolveSectionKey [secAt5, secAt2, secAt8] '!' = none := by
  have h := keyboard_mapping_compacts_enabled
  exact ⟨h.2.2.2.2.2.1 [] 'q' (by decide), h.2.2.2.2.2.2 [secAt5, secAt2, secAt8] '!' (by decide)⟩

/-- C1: for a marker currently at time `t0`, any number of
`updateMarkerSilent` calls followed by exactly one
`updateMarkerAtomic(id, t0, t1)` and one `undo()` restores the marker's time
to exactly `t0`; if this was the only history entry, `canUndo` is false after
the undo; and one subsequent `redo()` restores the time to exactly `t1`. -/
theorem atomic_drag_single_undo (s : MarkersStore) (id : ℕ) (t0 t1 : ℚ)
    (silents : List ℚ) (h0 : findMarkerTime id s = some t0) :
    findMarkerTime id (undoStore (updateMarkerAtomic id t0 t1
        (silents.foldl (fun st t => updateMarkerSilent id t st) s))) = some t0 ∧
    (s.history.past = [] →
      canUndo (undoStore (updateMarkerAtomic id t0 t1
        (silents.foldl (fun st t => updateMarkerSilent id t st) s))) = false) ∧
    findMarkerTime id (redoStore (undoStore (updateMarkerAtomic id t0 t1
        (silents.foldl (fun st t => updateMarkerSilent id t st) s)))) = some t1 := by
  have hex0 : ∃ m ∈ s.history.present, m.id = id := by
    unfold findMarkerTime at h0
    cases hf : s.history.present.find? (fun m => m.id == id) with
    | none =>
      rw [hf] at h0
      exact Option.noConfusion h0
    | some m =>
      exact ⟨m, List.mem_of_find?_eq_some hf, by simpa using List.find?_some hf⟩
  obtain ⟨hpast, _, hexf⟩ := runSilents_state id silents s
  set s1 := silents.foldl (fun st t => updateMarkerSilent id t st) s with hs1
  have hex1 : ∃ m ∈ s1.history.present, m.id = id := hexf hex0
  have hhist2 : (updateMarkerAtomic id t0 t1 s1).history
      = ⟨sortMarkersByTime (s1.history.present.map (setMarkerTime id t1)),
          s1.history.past.drop (s1.history.past.length + 1 - 50)
            ++ [sortMarkersByTime (s1.history.present.map (setMarkerTime id t0))], []⟩ := by
    show setStateWithExplicitHistory 50 s1.history
        (sortMarkersByTime (s1.history.present.map (setMarkerTime id t0)))
        (sortMarkersByTime (s1.history.present.map (setMarkerTime id t1))) = _
    unfold setStateWithExplicitHistory
    rw [sliceLast_concat 50 (by norm_num)]
  have hhist3 : (undoStore (updateMarkerAtomic id t0 t1 s1)).history
      = ⟨sortMarkersByTime (s1.history.present.map (setMarkerTime id t0)),
          s1.history.past.drop (s1.history.past.length + 1 - 50),
          [sortMarkersByTime (s1.history.present.map (setMarkerTime id t1))]⟩ := by
    show undoStep (updateMarkerAtomic id t0 t1 s1).history = _
    rw [hhist2, undoStep_concat]
  refine ⟨?_, ?_, ?_⟩
  · unfold findMarkerTime
    rw [show (undoStore (updateMarkerAtomic id t0 t1 s1)).history.present
        = sortMarkersByTime (s1.history.present.map (setMarkerTime id t0)) by rw [hhist3]]
    exact findMarkerTime_sorted_set id t0 _ hex1
  · intro hp
    unfold canUndo engineCanUndo
    rw [show (undoStore (updateMarkerAtomic id t0 t1 s1)).history.past
        = s1.history.past.drop (s1.history.past.length + 1 - 50) by rw [hhist3]]
    rw [hpast, hp]
    rfl
  · unfold findMarkerTime
    rw [show (redoStore (undoStore (updateMarkerAtomic id t0 t1 s1))).history.present
        = sortMarkersByTime (s1.history.present.map (setMarkerTime id t1)) by
      show (redoStep (undoStore (updateMarkerAtomic id t0 t1 s1)).history).present = _
      rw [hhist3]
      rfl]
    exact findMarkerTime_sorted_set id t1 _ hex1

/-- Closed instance of `atomic_drag_single_undo`: a one-marker store at time
2, two silent drag updates, one atomic commit from 2 to 9, then undo and
redo. -/
theorem atomic_drag_single_undo_witness :
    findMarkerTime 1 (undoStore (updateMarkerAtomic 1 2 9
        ([3, 7].foldl (fun st t => updateMarkerSilent 1 t st)
          ⟨⟨[⟨1, 2, "Section 1", true⟩], [], []⟩, some 1⟩))) = some 2 ∧
    canUndo (undoStore (updateMarkerAtomic 1 2 9
        ([3, 7].foldl (fun st t => updateMarkerSilent 1 t st)
          ⟨⟨[⟨1, 2, "Section 1", true⟩], [], []⟩, some 1⟩))) = false ∧
    findMarkerTime 1 (redoStore (undoStore (updateMarkerAtomic 1 2 9
        ([3, 7].foldl (fun st t => updateMarkerSilent 1 t st)
          ⟨⟨[⟨1, 2, "Section 1", true⟩], [], []⟩, some 1⟩)))) = some 9 := by
  have h := atomic_drag_single_undo ⟨⟨[⟨1, 2, "Section 1", true⟩], [], []⟩, some 1⟩ 1 2 9 [3, 7]
    (by decide)
  exact ⟨h.1, h.2.1 rfl, h.2.2⟩

/-- C5: after any sequence of `addMarker` (with pairwise-fresh generated ids)
and `updateMarker` calls applied to the store's current state, the marker
list read back is sorted ascending by time and its ids are pairwise
distinct. -/
theorem marker_list_sorted_and_ids_unique (ops : List MarkerOp)
    (h : (opAddIds ops).Nodup) :
    List.Sorted markerLE (storeMarkers (runMarkerOps initialStore ops)) ∧
    (idsOf (storeMarkers (runMarkerOps initialStore ops))).Nodup :=
  store_invariant ops initialStore List.sorted_nil h

/-- Closed instance of `marker_list_sorted_and_ids_unique` at a concrete
operation sequence. -/
theorem marker_list_sorted_and_ids_unique_witness :
    List.Sorted markerLE (storeMarkers (runMarkerOps initialStore
        [MarkerOp.add 1 5, MarkerOp.add 2 2, MarkerOp.update 1 0])) ∧
    (idsOf (storeMarkers (runMarkerOps initialStore
        [MarkerOp.add 1 5, MarkerOp.add 2 2, MarkerOp.update 1 0]))).Nodup :=
  marker_list_sorted_and_ids_unique [MarkerOp.add 1 5, MarkerOp.add 2 2, MarkerOp.update 1 0]
    (by decide)

/-- C6: the engine's `past` stack never exceeds the default bound of 50
under any operation sequence from an empty history; and after 51 distinct
historied edits from an empty history, fifty `undo()` calls exhaust the
history (`canUndo` becomes false) and land on the state after the first
edit — not on the original pre-edit state, which was discarded. -/
theorem history_capacity_and_truncation :
    (∀ (T : Type) (initial : T) (ops : List (EngineOp T)),
        (runEngine 50 (initEngine initial) ops).past.length ≤ 50) ∧
    (∀ (T : Type) (v : ℕ → T),
        (undoStep^[50] (runEngine 50 (initEngine (v 0))
            ((List.range 51).map fun i => EngineOp.set (v (i + 1)) false))).present = v 1 ∧
        engineCanUndo (undoStep^[50] (runEngine 50 (initEngine (v 0))
            ((List.range 51).map fun i => EngineOp.set (v (i + 1)) false))) = false ∧
        (v 1 ≠ v 0 →
          (undoStep^[50] (runEngine 50 (initEngine (v 0))
              ((List.range 51).map fun i => EngineOp.set (v (i + 1)) false))).present
            ≠ v 0)) := by
  constructor
  · intro T initial ops
    have h := runEngine_capacity ops (initEngine initial) (by simp [initEngine])
    omega
  · intro T v
    have hiter : undoStep^[50] (runEngine 50 (initEngine (v 0))
          ((List.range 51).map fun i => EngineOp.set (v (i + 1)) false))
        = ⟨v 1, [], ((List.range 49).map fun i => v (i + 1 + 1)) ++ [v 51]⟩ := by
      rw [fiftyone_edits_state]
      exact undoStep_iterate_range (fun i => v (i + 1)) 50 (v 51) [] (by norm_num)
    refine ⟨?_, ?_, ?_⟩
    · rw [hiter]
    · rw [hiter]
      rfl
    · intro hne
      rw [hiter]
      exact hne

/-- Closed instance of `history_capacity_and_truncation` over natural-number
states. -/
theorem history_capacity_and_truncation_witness :
    (runEngine 50 (initEngine (0 : ℕ)) []).past.length ≤ 50 ∧
    (undoStep^[50] (runEngine 50 (initEngine ((fun i : ℕ => i) 0))
        ((List.range 51).map fun i => EngineOp.set ((fun i : ℕ => i) (i + 1)) false))).present
      ≠ (fun i : ℕ => i) 0 := by
  have h := history_capacity_and_truncation
  exact ⟨h.1 ℕ 0 [], (h.2 ℕ (fun i => i)).2.2 (by decide)⟩

end SampleSliceTool
